import Mathlib

/-!
Shallow embedding of the television text channel
(src/crates/television/channels/text.rs) together with the pieces of its
environment that the channel exercises, followed by proofs about its
discovery, loading, querying and composition behaviour.

The fuzzy-matching engine, the filesystem and the string utilities of the
crate live outside src/; where such a piece decides a property it is
modelled from the specification, and its doc comment says so.
-/

namespace Television

/-- The maximum file size, in bytes, the crawler is willing to search in
(text.rs line 291): 4 * 1024 * 1024. -/
def MAX_FILE_SIZE : Nat := 4 * 1024 * 1024

/-- The maximum number of candidate lines kept in memory
(text.rs line 305): 5_000_000. -/
def MAX_LINES_IN_MEM : Nat := 5000000

/-- Cap on the number of files taken when piping from the Files channel
(text.rs line 157). -/
def MAX_PIPED_FILES : Nat := MAX_LINES_IN_MEM / 200

/-- Modelled from the spec (crate::utils::strings is not under src/): a
printable-ASCII byte, space through tilde. -/
def isPrintableAscii (b : Nat) : Bool := decide (32 ≤ b ∧ b < 127)

/-- Number of printable-ASCII bytes in a buffer. -/
def printableCount (buffer : List Nat) : Nat :=
  (buffer.filter isPrintableAscii).length

/-- Modelled from the spec (crate::utils::strings is not under src/): the
proportion of printable-ASCII bytes of a buffer, as an exact rational. -/
def proportion_of_printable_ascii_characters (buffer : List Nat) : ℚ :=
  (printableCount buffer : ℚ) / (buffer.length : ℚ)

/-- Modelled from the spec (crate::utils::strings is not under src/): the
fixed printable-ASCII threshold the probe compares against, taken as 7/10. -/
def PRINTABLE_ASCII_THRESHOLD : ℚ := 7 / 10

/-- Modelled from the spec (crate::utils::files is not under src/): the
binary heuristic judges a buffer non-text when it holds a NUL byte; the
Option mirrors the fallible signature, unwrapped with default false at the
call site. -/
def is_not_text (buffer : List Nat) : Option Bool := some (buffer.contains 0)

/-- Modelled from the spec (crate::utils::strings is not under src/):
whitespace/control-character normalization of one line, modelled as
dropping ASCII control characters and trimming surrounding blanks. -/
def preprocess_line (s : String) : String :=
  let kept := s.toList.filter (fun c => decide (32 ≤ c.toNat ∧ c.toNat ≠ 127))
  let front := kept.dropWhile (fun c => c == ' ')
  String.mk (front.reverse.dropWhile (fun c => c == ' ')).reverse

/-- One stored candidate: a path, one line of text and its 1-based line
number (text.rs lines 26-41). -/
structure CandidateLine where
  path : String
  line : String
  line_number : Nat
deriving DecidableEq

/-- Modelled from std semantics used at text.rs line 395,
path.strip_prefix(current_dir).unwrap_or(path): the path made relative to
current_dir when it lies under it, else kept unchanged. -/
def relativizeTo (current_dir path : String) : String :=
  if (current_dir ++ "/").toList.isPrefixOf path.toList then
    String.mk (path.toList.drop (current_dir.toList.length + 1))
  else path

/-- Modelled from the spec: one file as observed through the I/O calls
try_inject_lines makes — whether File::open succeeds, whether the initial
probe read succeeds and which bytes it yields (at most 128 of them),
the successive results of BufRead::lines (none models a line that fails
to decode, which ends the iteration), and the metadata length consulted
by the crawl-side size check. -/
structure FileModel where
  openOk : Bool
  readOk : Bool
  probe : List Nat
  lines : List (Option String)
  size : Nat
deriving DecidableEq

/-- The bytes_read count returned by the probe read. -/
def bytesRead (f : FileModel) : Nat := min f.probe.length 128

/-- The probe buffer: 128 zero-initialized bytes whose prefix the initial
read fills (text.rs lines 366-367). -/
def probeBuffer (f : FileModel) : List Nat :=
  f.probe.take 128 ++ List.replicate (128 - f.probe.length) 0

/-- The line-reading loop of try_inject_lines (text.rs lines 382-411):
line_number counts decoded lines, a decode failure stops the file, lines
empty after preprocessing are skipped, the rest become candidates. -/
def injectLoop (rel : String) : List (Option String) → Nat → List CandidateLine
  | [], _ => []
  | none :: _, _ => []
  | some l :: rest, line_number =>
    let line := preprocess_line l
    if line = "" then injectLoop rel rest (line_number + 1)
    else ⟨rel, line, line_number + 1⟩ :: injectLoop rel rest (line_number + 1)

/-- Shallow embedding of try_inject_lines (text.rs lines 357-419). The
candidates pushed to the injector are returned in place of the bare
count, whose value is the length of the returned list. The threshold
test, proportion < PRINTABLE_ASCII_THRESHOLD in the source, is carried
out over the naturals as 10 * printable < 7 * length; the lemma
below_threshold_iff proves this matches the rational comparison. -/
def try_inject_lines (current_dir : String) (path : String) (f : FileModel) :
    Option (List CandidateLine) :=
  if !f.openOk then none
  else if !f.readOk then none
  else if bytesRead f = 0 then none
  else if (is_not_text (probeBuffer f)).getD false then none
  else if 10 * printableCount (probeBuffer f) < 7 * (probeBuffer f).length then none
  else some (injectLoop (relativizeTo current_dir path) f.lines 0)

/-- The background task of Channel::from_file_paths (text.rs lines 80-92):
walk the seeded files in order, breaking once lines_in_mem exceeds the
budget; every file goes straight through try_inject_lines — the source
performs no size check on this load path. Each seeded path carries the
FileModel the filesystem answers for it. -/
def from_file_paths_load (current_dir : String) :
    List (String × FileModel) → Nat → List CandidateLine
  | [], _ => []
  | pf :: rest, lines_in_mem =>
    if lines_in_mem > MAX_LINES_IN_MEM then []
    else
      match try_inject_lines current_dir pf.1 pf.2 with
      | some cands =>
        cands ++ from_file_paths_load current_dir rest (lines_in_mem + cands.length)
      | none => from_file_paths_load current_dir rest lines_in_mem

/-- Modelled from the spec (crate::entry is not under src/): the
output-facing Entry projection, restricted to the fields the text channel
reads or writes. -/
structure Entry where
  name : String
  display_name : Option String
  value : Option String
  value_match_ranges : Option (List (Nat × Nat))
  line_number : Option Nat
deriving DecidableEq

/-- Modelled from the spec: the display_name() accessor falls back to the
name when no display name is set. -/
def Entry.displayName (e : Entry) : String := e.display_name.getD e.name

/-- The candidate from_text_entries builds out of one well-formed entry. -/
def candOf (e : Entry) : CandidateLine :=
  ⟨e.displayName, e.value.getD "", e.line_number.getD 0⟩

/-- The background task of Channel::from_text_entries (text.rs lines
112-130): push one candidate per entry, counting one line each, breaking
once over budget. The Bool records whether the task panicked on the
unwrap of a missing value or line number; from that entry on nothing
further is injected. -/
def from_text_entries_load : List Entry → Nat → List CandidateLine × Bool
  | [], _ => ([], false)
  | e :: rest, lines_in_mem =>
    if lines_in_mem > MAX_LINES_IN_MEM then ([], false)
    else
      match e.value, e.line_number with
      | some v, some ln =>
        let r := from_text_entries_load rest (lines_in_mem + 1)
        (⟨e.displayName, v, ln⟩ :: r.1, r.2)
      | _, _ => ([], true)

/-- Modelled from the spec: the live source channel interface composition
uses — its result count and its results(num_entries, offset) query. -/
structure SourceChannel where
  result_count : Nat
  results : Nat → Nat → List Entry

/-- The seed path list the Files arm of From for Channel hands to
from_file_paths (text.rs lines 162-177): take the top
min(result_count, u32-clamped MAX_PIPED_FILES) results and keep the
successfully canonicalized paths; canon is the canonicalization oracle,
returning none on failure, and flat_map drops those. -/
def pipedSeedPaths (canon : String → Option String) (c : SourceChannel) :
    List String :=
  (c.results
      (min c.result_count
        (if MAX_PIPED_FILES < 2 ^ 32 then MAX_PIPED_FILES else 2 ^ 32 - 1)) 0).filterMap
    (fun e => canon e.name)

/-- One recorded reparse call on the match index pattern (column 0; smart
case matching and smart normalization are constants in the source and are
omitted from the record). -/
structure Reparse where
  column : Nat
  pattern : String
  append : Bool
deriving DecidableEq

/-- The channel state find reads and writes: the stored last pattern and
the trace of reparse calls issued to the index. -/
structure FindState where
  last_pattern : String
  reparses : List Reparse
deriving DecidableEq

/-- OnAir::find for Channel (text.rs lines 199-210). -/
def find (s : FindState) (pattern : String) : FindState :=
  if pattern ≠ s.last_pattern then
    ⟨pattern, s.reparses ++ [⟨0, pattern, pattern.startsWith s.last_pattern⟩]⟩
  else s

/-- The pagination range OnAir::results passes to snapshot.matched_items
(text.rs lines 223-228): offset .. min(num_entries + offset,
matched_item_count), the u32 sum taken with release-mode wrapping. -/
def results_range (num_entries offset matched_item_count : Nat) : Nat × Nat :=
  (offset, min ((num_entries + offset) % 2 ^ 32) matched_item_count)

/-- Rust Vec::dedup — remove consecutive repeated elements. -/
def dedupConsec : List Nat → List Nat
  | [] => []
  | [a] => [a]
  | a :: b :: rest =>
    if a = b then dedupConsec (b :: rest) else a :: dedupConsec (b :: rest)

/-- indices.sort_unstable(); indices.dedup() (text.rs lines 235-236). On
Nat keys the unstable sort produces the unique sorted permutation, here
given by insertion sort. -/
def sortedIndices (indices : List Nat) : List Nat :=
  dedupConsec (List.insertionSort (fun a b => a ≤ b) indices)

/-- indices.map(i => (i, i + 1)) (text.rs line 248): each match position
expanded to a width-one byte range. -/
def rangesFromIndices (indices : List Nat) : List (Nat × Nat) :=
  (sortedIndices indices).map (fun i => (i, i + 1))

/-- One matched item as the snapshot delivers it: its candidate data and
the match positions the engine reports for column 0. -/
structure SnapItem where
  path : String
  line : String
  line_number : Nat
  matchIndices : List Nat

/-- The Entry OnAir::results builds for one matched item (text.rs lines
229-251): name is display path concatenated with the line number, the
display name is the path, the value the line, the match ranges come from
rangesFromIndices. -/
def entryOfItem (it : SnapItem) : Entry :=
  ⟨it.path ++ toString it.line_number, some it.path, some it.line,
    some (rangesFromIndices it.matchIndices), some it.line_number⟩

/-- The decoded prefix of a file's line results: the lines before the
first decode failure. -/
def decodedOk : List (Option String) → List String
  | [] => []
  | none :: _ => []
  | some l :: rest => l :: decodedOk rest

/-- The candidates a probe-accepted file contributes, described
positionally: one candidate per decoded line that survives preprocessing,
tagged with its 1-based position among all decoded lines, empty ones
included in the count. -/
def emittedCands (rel : String) (lines : List (Option String)) :
    List CandidateLine :=
  ((decodedOk lines).enumFrom 1).filterMap
    (fun pr =>
      if preprocess_line pr.2 = "" then none
      else some ⟨rel, preprocess_line pr.2, pr.1⟩)

/-- Crawl worker status: idle between files, holding a claimed file of k
candidate lines, having pushed those lines to the injector but not yet
added them to the shared counter, or stopped by the budget check. -/
inductive WStatus where
  | idle : WStatus
  | claimed : Nat → WStatus
  | pushed : Nat → WStatus
  | quit : WStatus
deriving DecidableEq

/-- Shared state of the parallel crawl (crawl_for_candidates, text.rs
lines 322-354): the shared atomic counter, the number of candidates ever
pushed to the injector, and each worker's status. -/
structure CrawlState where
  counter : Nat
  injected : Nat
  workers : List WStatus
deriving DecidableEq

/-- One scheduler event of the interleaved crawl: a worker passes the
budget check and claims a file of k lines, or quits on that check, or
pushes its claimed lines to the injector, or adds their count to the
shared counter. -/
inductive CEvent where
  | checkClaim : Nat → Nat → CEvent
  | checkQuit : Nat → CEvent
  | push : Nat → CEvent
  | addCount : Nat → CEvent
deriving DecidableEq

/-- Modelled from the spec (the parallel walker of the ignore crate is
not under src/): interleaved small-step semantics of the crawl workers;
none rejects an event the source's guards make impossible. The budget
check — quit when counter > MAX_LINES_IN_MEM, text.rs lines 329-333 —
happens before a worker claims a file; the claimed file's candidates are
pushed one by one (text.rs line 401) before fetch_add publishes their
count (text.rs lines 345-348). -/
def cstep (s : CrawlState) : CEvent → Option CrawlState
  | .checkClaim w k =>
    match s.workers[w]? with
    | some .idle =>
      if s.counter ≤ MAX_LINES_IN_MEM then
        some ⟨s.counter, s.injected, s.workers.set w (.claimed k)⟩
      else none
    | _ => none
  | .checkQuit w =>
    match s.workers[w]? with
    | some .idle =>
      if s.counter > MAX_LINES_IN_MEM then
        some ⟨s.counter, s.injected, s.workers.set w .quit⟩
      else none
    | _ => none
  | .push w =>
    match s.workers[w]? with
    | some (.claimed k) =>
      some ⟨s.counter, s.injected + k, s.workers.set w (.pushed k)⟩
    | _ => none
  | .addCount w =>
    match s.workers[w]? with
    | some (.pushed k) =>
      some ⟨s.counter + k, s.injected, s.workers.set w .idle⟩
    | _ => none

/-- Run a sequence of crawl events from a state. -/
def crun (s : CrawlState) : List CEvent → Option CrawlState
  | [] => some s
  | e :: evs => (cstep s e).bind (fun s2 => crun s2 evs)

/-- Initial crawl state with W idle workers and empty counters. -/
def cinit (W : Nat) : CrawlState := ⟨0, 0, List.replicate W .idle⟩

/-- Lines of the file a worker currently holds, claimed or pushed. -/
def pendAmt : WStatus → Nat
  | .claimed k => k
  | .pushed k => k
  | _ => 0

/-- Lines a worker has pushed to the injector but not yet added to the
shared counter. -/
def pushedAmt : WStatus → Nat
  | .pushed k => k
  | _ => 0

/-- Total lines held by workers in flight. -/
def pendingSum (ws : List WStatus) : Nat := (ws.map pendAmt).sum

/-- Total lines pushed but not yet counted. -/
def pushedSum (ws : List WStatus) : Nat := (ws.map pushedAmt).sum

/-- Bound check on the file size an event claims: every claimed file
injects at most K candidate lines. -/
def eventOKb (K : Nat) : CEvent → Bool
  | .checkClaim _ k => decide (k ≤ K)
  | _ => true

/-- Inductive invariant of the crawl: W workers, each in-flight file within
the per-file bound, the injected count splits into the published counter
plus the pushed-but-uncounted amounts, and counter plus everything in
flight stays within budget plus one batch per worker. -/
def CrawlInv (K W : Nat) (s : CrawlState) : Prop :=
  s.workers.length = W ∧ (∀ st ∈ s.workers, pendAmt st ≤ K) ∧
  s.injected = s.counter + pushedSum s.workers ∧
  s.counter + pendingSum s.workers ≤ MAX_LINES_IN_MEM + W * K

/-- A FileModel with its metadata length replaced. -/
def withSize (f : FileModel) (n : Nat) : FileModel :=
  ⟨f.openOk, f.readOk, f.probe, f.lines, n⟩

/-- Candidates one seeded file contributes (none contributes nothing). -/
def injectedOf (current_dir : String) (pf : String × FileModel) :
    List CandidateLine :=
  (try_inject_lines current_dir pf.1 pf.2).getD []

/-- The prefix of the seeded file list the budget lets the load reach. -/
def budgetTaken (current_dir : String) :
    Nat → List (String × FileModel) → List (String × FileModel)
  | _, [] => []
  | c, pf :: rest =>
    if c > MAX_LINES_IN_MEM then []
    else pf :: budgetTaken current_dir (c + (injectedOf current_dir pf).length) rest

/-- A 128-byte all-printable probe. -/
def printableProbe : List Nat := List.replicate 128 97

/-- An oversized text file: larger than MAX_FILE_SIZE, passing the probe,
holding one line. -/
def bigTextFile : FileModel :=
  ⟨true, true, printableProbe, [some "hello"], MAX_FILE_SIZE + 1⟩

/-- A short file of pure printable text. -/
def shortTextFile : FileModel := ⟨true, true, [104, 105], [some "hi"], 2⟩

/-- A file whose probe holds a NUL byte. -/
def nulFile : FileModel := ⟨true, true, [0, 104, 105], [some "hi"], 3⟩

/-- A text file whose third line fails to decode. -/
def decodeErrFile : FileModel :=
  ⟨true, true, printableProbe, [some "hi", some " ", none, some "bye"], 20⟩

/-- A well-formed entry for the seeded-entry load. -/
def goodEntry : Entry := ⟨"g", none, some "v", none, some 1⟩

/-- An entry lacking both its value and its line number. -/
def badEntry : Entry := ⟨"b", none, none, none, none⟩

/-- A current directory and a seeded path used by concrete instances. -/
def dirD : String := "d"

/-- A seeded path outside dirD. -/
def pathP : String := "p.txt"

/-- A source channel with a cached count of 2 and no results. -/
def emptySource : SourceChannel := ⟨2, fun _ _ => []⟩

/-- A find state whose last pattern is "ab" with no reparse issued yet. -/
def fixA : FindState := ⟨"ab", []⟩

/-- A matched item with unsorted, repeated match positions. -/
def sampleItem : SnapItem := ⟨"p", "l", 1, [3, 1, 3]⟩

/-- The crawl event trace used by the concrete budget instance. -/
def wevs : List CEvent := [.checkClaim 0 2, .push 0, .addCount 0]

set_option maxRecDepth 10000

/-- filterMap only looks at the function's values on the list. -/
theorem filterMapExt {α β : Type} (l : List α) (f g : α → Option β)
    (h : ∀ a ∈ l, f a = g a) : l.filterMap f = l.filterMap g := by
  induction l with
  | nil => rfl
  | cons a t ih =>
    rw [List.filterMap_cons, List.filterMap_cons, h a (by simp),
      ih (fun x hx => h x (by simp [hx]))]

/-- The natural-number threshold test of try_inject_lines agrees with the
rational comparison proportion < PRINTABLE_ASCII_THRESHOLD on any
non-empty buffer. -/
theorem below_threshold_iff (l : List Nat) (h : 0 < l.length) :
    (10 * printableCount l < 7 * l.length ↔
      proportion_of_printable_ascii_characters l < PRINTABLE_ASCII_THRESHOLD) := by
  unfold proportion_of_printable_ascii_characters PRINTABLE_ASCII_THRESHOLD
  rw [div_lt_div_iff₀ (by exact_mod_cast h) (by norm_num)]
  constructor
  · intro hn
    exact_mod_cast (by omega : printableCount l * 10 < 7 * l.length)
  · intro hq
    have hn : printableCount l * 10 < 7 * l.length := by exact_mod_cast hq
    omega

/-- The probe buffer always holds exactly 128 bytes. -/
theorem length_probeBuffer (f : FileModel) : (probeBuffer f).length = 128 := by
  simp [probeBuffer]
  omega

/-- Claim C1: the range results passes to the snapshot, offset ..
min(num_entries + offset, matched_item_count), is claimed to be always
valid; at num_entries = 0, offset = 1 with no matched item the code
instead builds the inverted range 1 .. 0, whose end precedes its start. -/
theorem claim_C1_inverted_range :
    results_range 0 1 0 = (1, 0) ∧
      (results_range 0 1 0).2 < (results_range 0 1 0).1 := by
  decide

/-- Membership is unchanged by consecutive deduplication. -/
theorem mem_dedupConsec (a : Nat) : ∀ l : List Nat, a ∈ dedupConsec l ↔ a ∈ l := by
  intro l
  induction l with
  | nil => simp [dedupConsec]
  | cons b t ih =>
    cases t with
    | nil => simp [dedupConsec]
    | cons c t2 =>
      simp only [dedupConsec]
      by_cases h : b = c
      · rw [if_pos h, ih]
        subst h
        simp [List.mem_cons]
      · rw [if_neg h]
        simp [List.mem_cons, ih]

/-- Consecutive deduplication of a weakly sorted list is strictly sorted. -/
theorem pairwise_lt_dedupConsec : ∀ l : List Nat,
    List.Sorted (fun x y => x ≤ y) l →
      List.Pairwise (fun x y => x < y) (dedupConsec l) := by
  intro l
  induction l with
  | nil => intro _; simp [dedupConsec]
  | cons b t ih =>
    intro hs
    cases t with
    | nil => simp [dedupConsec]
    | cons c t2 =>
      have hs2 : List.Sorted (fun x y => x ≤ y) (c :: t2) := hs.of_cons
      have hbc : b ≤ c := (List.sorted_cons.mp hs).1 c (by simp)
      simp only [dedupConsec]
      by_cases h : b = c
      · rw [if_pos h]
        exact ih hs2
      · rw [if_neg h]
        refine List.Pairwise.cons ?_ (ih hs2)
        intro x hx
        rw [mem_dedupConsec] at hx
        have hblt : b < c := lt_of_le_of_ne hbc h
        rcases List.mem_cons.mp hx with rfl | hx2
        · exact hblt
        · exact lt_of_lt_of_le hblt ((List.sorted_cons.mp hs2).1 x hx2)

/-- Claim C7: each returned Entry carries exactly the deduplicated, sorted
match positions, each expanded to the width-one range (pos, pos + 1): the
starts are strictly sorted and duplicate-free, every range has end =
start + 1 (no coalescing), and the starts are exactly the positions the
engine reported. -/
theorem claim_C7_match_ranges (it : SnapItem) :
    (entryOfItem it).value_match_ranges = some (rangesFromIndices it.matchIndices)
    ∧ List.Pairwise (fun x y => x < y)
        ((rangesFromIndices it.matchIndices).map Prod.fst)
    ∧ ((rangesFromIndices it.matchIndices).all fun pr => pr.2 == pr.1 + 1) = true
    ∧ ∀ i : Nat,
        (i ∈ (rangesFromIndices it.matchIndices).map Prod.fst ↔ i ∈ it.matchIndices) := by
  have hmap : (rangesFromIndices it.matchIndices).map Prod.fst
      = sortedIndices it.matchIndices := by
    rw [rangesFromIndices, List.map_map]
    have hid : (Prod.fst ∘ fun i : Nat => (i, i + 1)) = fun i : Nat => i := rfl
    rw [hid]
    exact List.map_id _
  refine ⟨rfl, ?_, ?_, ?_⟩
  · rw [hmap]
    exact pairwise_lt_dedupConsec _ (List.sorted_insertionSort _ _)
  · simp [rangesFromIndices, List.all_eq_true]
  · intro i
    rw [hmap, sortedIndices, mem_dedupConsec]
    exact (List.perm_insertionSort _ _).mem_iff

/-- Witness for claim C7 at a concrete unsorted, repeated index list. -/
theorem claim_C7_witness :
    (entryOfItem sampleItem).value_match_ranges = some (rangesFromIndices [3, 1, 3])
    ∧ (3 ∈ (rangesFromIndices [3, 1, 3]).map Prod.fst ↔ 3 ∈ [3, 1, 3]) :=
  ⟨(claim_C7_match_ranges sampleItem).1, (claim_C7_match_ranges sampleItem).2.2.2 3⟩

/-- Claim C6: find is a no-op on a repeated pattern, otherwise issues
exactly one reparse whose append hint is the prefix test against the
stored pattern and records the pattern; an immediate repetition changes
nothing. -/
theorem claim_C6_find_idempotent (s : FindState) (p : String) :
    find s s.last_pattern = s
    ∧ (p ≠ s.last_pattern →
        find s p = ⟨p, s.reparses ++ [⟨0, p, p.startsWith s.last_pattern⟩]⟩)
    ∧ find (find s p) p = find s p := by
  refine ⟨by simp [find], fun h => by simp [find, h], ?_⟩
  by_cases h : p = s.last_pattern
  · subst h
    simp [find]
  · simp [find, h]

/-- Witness for claim C6 at a concrete state and patterns. -/
theorem claim_C6_witness :
    find fixA fixA.last_pattern = fixA
    ∧ find fixA "abc"
        = ⟨"abc", fixA.reparses ++ [⟨0, "abc", "abc".startsWith fixA.last_pattern⟩]⟩
    ∧ find (find fixA "abc") "abc" = find fixA "abc" :=
  ⟨(claim_C6_find_idempotent fixA "zz").1,
    (claim_C6_find_idempotent fixA "abc").2.1 (by decide),
    (claim_C6_find_idempotent fixA "abc").2.2⟩

/-- Claim C4: a NUL byte among the file's probe bytes, a printable-ASCII
proportion of those bytes under the threshold, or an empty initial read,
each make try_inject_lines return none before reading any line. -/
theorem claim_C4_binary_rejection (cd p : String) (f : FileModel)
    (hopen : f.openOk = true) (hread : f.readOk = true)
    (hlen : f.probe.length ≤ 128)
    (h : 0 ∈ f.probe
        ∨ proportion_of_printable_ascii_characters f.probe < PRINTABLE_ASCII_THRESHOLD
        ∨ bytesRead f = 0) :
    try_inject_lines cd p f = none := by
  by_cases h0 : bytesRead f = 0
  · simp [try_inject_lines, hopen, hread, h0]
  · by_cases hz : (0 : Nat) ∈ probeBuffer f
    · simp [try_inject_lines, hopen, hread, h0, is_not_text, hz]
    · have hfull : f.probe.length = 128 := by
        rcases Nat.lt_or_ge f.probe.length 128 with hlt | hge
        · exfalso
          apply hz
          have hmem : (0 : Nat) ∈ List.replicate (128 - f.probe.length) 0 :=
            List.mem_replicate.mpr ⟨by omega, rfl⟩
          exact List.mem_append_right _ hmem
        · omega
      have hbuf : probeBuffer f = f.probe := by
        rw [probeBuffer, List.take_of_length_le (by omega)]
        simp [hfull]
      rcases h with hmem | hprop | h0'
      · exact absurd (hbuf ▸ hmem) hz
      · have hnat : 10 * printableCount f.probe < 7 * f.probe.length :=
          (below_threshold_iff f.probe (by omega)).mpr hprop
        simp [try_inject_lines, hopen, hread, h0, is_not_text, hbuf, hnat]
      · exact absurd h0' h0

/-- Witness for claim C4 at a concrete file whose probe holds a NUL. -/
theorem claim_C4_witness : try_inject_lines dirD pathP nulFile = none :=
  claim_C4_binary_rejection dirD pathP nulFile (by decide) (by decide) (by decide)
    (Or.inl (by decide))

/-- Claim C5: the probe heuristics run over the whole zero-initialized
128-byte buffer, so a file shorter than 128 bytes is probed on its bytes
followed by trailing NULs, its printable-ASCII proportion is at most
bytes_read / 128, and a short file of pure printable text is rejected. -/
theorem claim_C5_short_file (cd p : String) (f : FileModel)
    (hopen : f.openOk = true) (hread : f.readOk = true)
    (hshort : f.probe.length < 128)
    (hprint : ∀ b ∈ f.probe, isPrintableAscii b = true) :
    probeBuffer f = f.probe ++ List.replicate (128 - f.probe.length) 0
    ∧ proportion_of_printable_ascii_characters (probeBuffer f)
        ≤ (bytesRead f : ℚ) / 128
    ∧ try_inject_lines cd p f = none := by
  have hbuf : probeBuffer f = f.probe ++ List.replicate (128 - f.probe.length) 0 := by
    rw [probeBuffer, List.take_of_length_le (le_of_lt hshort)]
  refine ⟨hbuf, ?_, ?_⟩
  · have hrep : (List.replicate (128 - f.probe.length) 0).filter isPrintableAscii = [] := by
      simp [List.filter_replicate, isPrintableAscii]
    have hbr : bytesRead f = f.probe.length := by
      rw [bytesRead]
      omega
    have hcount : printableCount (probeBuffer f) ≤ bytesRead f := by
      have heq : printableCount (probeBuffer f) = (f.probe.filter isPrintableAscii).length := by
        rw [hbuf]
        unfold printableCount
        rw [List.filter_append, hrep]
        simp
      rw [heq, hbr]
      exact List.length_filter_le _ _
    have h128 : ((probeBuffer f).length : ℚ) = 128 := by
      rw [length_probeBuffer]
      norm_num
    unfold proportion_of_printable_ascii_characters
    rw [h128]
    have hq : (printableCount (probeBuffer f) : ℚ) ≤ (bytesRead f : ℚ) := by
      exact_mod_cast hcount
    gcongr
  · by_cases h0 : bytesRead f = 0
    · simp [try_inject_lines, hopen, hread, h0]
    · have hz : (0 : Nat) ∈ probeBuffer f := by
        rw [hbuf]
        exact List.mem_append_right _ (List.mem_replicate.mpr ⟨by omega, rfl⟩)
      simp [try_inject_lines, hopen, hread, h0, is_not_text, hz]

/-- Witness for claim C5 at a concrete two-byte printable file. -/
theorem claim_C5_witness :
    try_inject_lines dirD pathP shortTextFile = none
    ∧ proportion_of_printable_ascii_characters (probeBuffer shortTextFile)
        ≤ (bytesRead shortTextFile : ℚ) / 128 :=
  ⟨(claim_C5_short_file dirD pathP shortTextFile (by decide) (by decide) (by decide)
      (by decide)).2.2,
    (claim_C5_short_file dirD pathP shortTextFile (by decide) (by decide) (by decide)
      (by decide)).2.1⟩

/-- The injection loop, characterized positionally: starting at decoded
line number n it keeps, from the decoded prefix of the lines, every line
non-empty after preprocessing, numbered from n + 1 onward. -/
theorem injectLoop_enumFrom (rel : String) :
    ∀ (lines : List (Option String)) (n : Nat),
      injectLoop rel lines n =
        ((decodedOk lines).enumFrom (n + 1)).filterMap
          (fun pr =>
            if preprocess_line pr.2 = "" then none
            else some ⟨rel, preprocess_line pr.2, pr.1⟩) := by
  intro lines
  induction lines with
  | nil => intro n; simp [injectLoop, decodedOk]
  | cons o rest ih =>
    intro n
    cases o with
    | none => simp [injectLoop, decodedOk]
    | some l =>
      simp only [injectLoop, decodedOk, List.enumFrom, List.filterMap_cons, ih (n + 1)]
      by_cases hl : preprocess_line l = ""
      · simp [hl]
      · simp [hl]

/-- Claim C9: a probe-accepted file yields exactly one candidate per
decoded line that is non-empty after normalization, numbered by its true
1-based position among all decoded lines (skipped empty ones included); a
decode failure ends that file, keeps what was already injected, and the
call still returns some — never an error. -/
theorem claim_C9_line_emission (cd p : String) (f : FileModel)
    (hopen : f.openOk = true) (hread : f.readOk = true)
    (hne : bytesRead f ≠ 0)
    (hnz : (0 : Nat) ∉ probeBuffer f)
    (hprop : ¬ proportion_of_printable_ascii_characters (probeBuffer f)
        < PRINTABLE_ASCII_THRESHOLD) :
    try_inject_lines cd p f = some (emittedCands (relativizeTo cd p) f.lines) := by
  have hlenpos : 0 < (probeBuffer f).length := by
    rw [length_probeBuffer]
    omega
  have hnat : ¬ (10 * printableCount (probeBuffer f) < 7 * (probeBuffer f).length) := by
    intro hlt
    exact hprop ((below_threshold_iff _ hlenpos).mp hlt)
  simp [try_inject_lines, hopen, hread, hne, is_not_text, hnz, hnat, emittedCands,
    injectLoop_enumFrom]

/-- Witness for claim C9 at a file whose third line fails to decode. -/
theorem claim_C9_witness :
    try_inject_lines dirD pathP decodeErrFile
        = some (emittedCands (relativizeTo dirD pathP) decodeErrFile.lines)
    ∧ emittedCands (relativizeTo dirD pathP) decodeErrFile.lines = [⟨pathP, "hi", 1⟩] :=
  ⟨claim_C9_line_emission dirD pathP decodeErrFile (by decide) (by decide) (by decide)
      (by decide)
      (fun hq =>
        absurd ((below_threshold_iff (probeBuffer decodeErrFile) (by decide)).mpr hq)
          (by decide)),
    by decide⟩

/-- Replacing a file's metadata length changes nothing try_inject_lines
observes. -/
theorem try_inject_withSize (cd p : String) (f : FileModel) (n : Nat) :
    try_inject_lines cd p (withSize f n) = try_inject_lines cd p f := rfl

/-- The seeded-path load is the concatenation of the per-file candidate
lists over the budget-limited prefix of the seed list. -/
theorem load_eq_join (cd : String) :
    ∀ (fs : List (String × FileModel)) (c : Nat),
      from_file_paths_load cd fs c = ((budgetTaken cd c fs).map (injectedOf cd)).flatten := by
  intro fs
  induction fs with
  | nil => intro c; simp [from_file_paths_load, budgetTaken]
  | cons pf rest ih =>
    intro c
    by_cases hc : c > MAX_LINES_IN_MEM
    · simp [from_file_paths_load, budgetTaken, hc]
    · cases ht : try_inject_lines cd pf.1 pf.2 with
      | none => simp [from_file_paths_load, budgetTaken, hc, ht, injectedOf, ih]
      | some cands => simp [from_file_paths_load, budgetTaken, hc, ht, injectedOf, ih]

/-- The seeded-path load never consults the files' metadata lengths. -/
theorem load_resize (cd : String) (sz : String × FileModel → Nat) :
    ∀ (fs : List (String × FileModel)) (c : Nat),
      from_file_paths_load cd (fs.map (fun pf => (pf.1, withSize pf.2 (sz pf)))) c
        = from_file_paths_load cd fs c := by
  intro fs
  induction fs with
  | nil => intro c; rfl
  | cons pf rest ih =>
    intro c
    by_cases hc : c > MAX_LINES_IN_MEM
    · simp [from_file_paths_load, hc]
    · simp only [List.map_cons, from_file_paths_load, if_neg hc]
      rw [try_inject_withSize]
      cases ht : try_inject_lines cd pf.1 pf.2 with
      | none => simp [ht, ih]
      | some cands => simp [ht, ih]

/-- Counterexample to claim C2: a seeded file larger than the 4 MiB size
ceiling whose content passes the text probe yields a candidate — the
seeded-path load performs no size check, unlike the directory crawl. -/
theorem claim_C2_counterexample :
    bigTextFile.size > MAX_FILE_SIZE
    ∧ from_file_paths_load dirD [(pathP, bigTextFile)] 0 = [⟨pathP, "hello", 1⟩] := by
  constructor
  · decide
  · decide

/-- Claim C2 as amended: the seeded-path load routes every seeded file
through the same binary/text probe (try_inject_lines), stops once the
global line budget is exceeded, and ignores file sizes entirely — the
4 MiB ceiling of the crawl is not applied on this path. -/
theorem claim_C2_amended (cd : String) (fs : List (String × FileModel)) (c : Nat)
    (sz : String × FileModel → Nat) :
    from_file_paths_load cd fs c = ((budgetTaken cd c fs).map (injectedOf cd)).flatten
    ∧ from_file_paths_load cd (fs.map (fun pf => (pf.1, withSize pf.2 (sz pf)))) c
        = from_file_paths_load cd fs c
    ∧ (c > MAX_LINES_IN_MEM → from_file_paths_load cd fs c = []) := by
  refine ⟨load_eq_join cd fs c, load_resize cd sz fs c, ?_⟩
  intro hc
  cases fs with
  | nil => rfl
  | cons pf rest => simp [from_file_paths_load, hc]

/-- Witness for claim C2 as amended: with the counter already past the
budget the seeded load injects nothing. -/
theorem claim_C2_witness :
    from_file_paths_load dirD [(pathP, shortTextFile)] (MAX_LINES_IN_MEM + 1) = [] :=
  (claim_C2_amended dirD [(pathP, shortTextFile)] (MAX_LINES_IN_MEM + 1)
    (fun _ => 0)).2.2 (by decide)

/-- Claim C8: piping a Files channel seeds the loader with at most
MAX_PIPED_FILES = MAX_LINES_IN_MEM / 200 paths, taking min(result count,
cap) of the source's top results, and paths that fail to canonicalize are
dropped rather than erroring. -/
theorem claim_C8_composition_cap (canon : String → Option String) (c : SourceChannel)
    (hres : ∀ n o, (c.results n o).length ≤ n) :
    (pipedSeedPaths canon c).length ≤ MAX_PIPED_FILES
    ∧ (pipedSeedPaths canon c).length ≤ min c.result_count MAX_PIPED_FILES
    ∧ MAX_PIPED_FILES = MAX_LINES_IN_MEM / 200
    ∧ ∀ q : String,
        (q ∈ pipedSeedPaths canon c ↔
          ∃ e ∈ c.results (min c.result_count MAX_PIPED_FILES) 0, canon e.name = some q) := by
  have hcap : (if MAX_PIPED_FILES < 2 ^ 32 then MAX_PIPED_FILES else 2 ^ 32 - 1)
      = MAX_PIPED_FILES := by decide
  have hlen2 : (pipedSeedPaths canon c).length ≤ min c.result_count MAX_PIPED_FILES := by
    unfold pipedSeedPaths
    rw [hcap]
    exact le_trans (List.length_filterMap_le _ _) (hres _ 0)
  refine ⟨le_trans hlen2 (min_le_right _ _), hlen2, rfl, ?_⟩
  intro q
  unfold pipedSeedPaths
  rw [hcap]
  exact List.mem_filterMap

/-- Witness for claim C8 at a source channel returning no entries. -/
theorem claim_C8_witness :
    (pipedSeedPaths (fun _ => none) emptySource).length ≤ MAX_PIPED_FILES
    ∧ MAX_PIPED_FILES = MAX_LINES_IN_MEM / 200 :=
  ⟨(claim_C8_composition_cap (fun _ => none) emptySource (fun n o => by simp [emptySource])).1,
    (claim_C8_composition_cap (fun _ => none) emptySource
      (fun n o => by simp [emptySource])).2.2.1⟩

/-- A bad entry reached within the budget makes the seeded-entry load stop
with a panic, keeping exactly the candidates of the good prefix. -/
theorem load_entries_front (e : Entry) (post : List Entry)
    (hbad : e.value = none ∨ e.line_number = none) :
    ∀ (pre : List Entry) (c : Nat),
      (∀ e2 ∈ pre, (e2.value).isSome = true ∧ (e2.line_number).isSome = true) →
      c + pre.length ≤ MAX_LINES_IN_MEM →
      from_text_entries_load (pre ++ e :: post) c = (pre.map candOf, true) := by
  intro pre
  induction pre with
  | nil =>
    intro c hgood hc
    simp only [List.nil_append, from_text_entries_load]
    rw [if_neg (by simp at hc; omega)]
    rcases hbad with hb | hb
    · simp [hb]
    · cases hv : e.value with
      | none => simp [hv]
      | some v => simp [hv, hb]
  | cons g pre2 ih =>
    intro c hgood hc
    obtain ⟨hv, hl⟩ := hgood g (by simp)
    obtain ⟨v, hv⟩ := Option.isSome_iff_exists.mp hv
    obtain ⟨ln, hl⟩ := Option.isSome_iff_exists.mp hl
    have hc2 : ¬ c > MAX_LINES_IN_MEM := by
      simp at hc
      omega
    simp only [List.cons_append, from_text_entries_load, if_neg hc2, hv, hl,
      List.append_eq]
    rw [ih (c + 1) (fun e2 he2 => hgood e2 (by simp [he2])) (by simp at hc ⊢; omega)]
    simp [candOf, Entry.displayName, hv, hl]

/-- Claim C10 as amended: when the first entry lacking a value or a line
number sits at an index the line budget still reaches (at most
MAX_LINES_IN_MEM), the load panics at that entry — it is not skipped —
keeping the candidates of the preceding entries and injecting nothing
further. -/
theorem claim_C10_amended (pre post : List Entry) (e : Entry)
    (hgood : ∀ e2 ∈ pre, (e2.value).isSome = true ∧ (e2.line_number).isSome = true)
    (hlen : pre.length ≤ MAX_LINES_IN_MEM)
    (hbad : e.value = none ∨ e.line_number = none) :
    from_text_entries_load (pre ++ e :: post) 0 = (pre.map candOf, true) :=
  load_entries_front e post hbad pre 0 hgood (by omega)

/-- Witness for claim C10 as amended at a three-entry list whose middle
entry lacks both fields. -/
theorem claim_C10_witness :
    from_text_entries_load ([goodEntry] ++ badEntry :: [goodEntry]) 0
      = ([goodEntry].map candOf, true) :=
  claim_C10_amended [goodEntry] [goodEntry] badEntry (by decide) (by decide)
    (Or.inl rfl)

/-- Processing a run of well-formed entries that exactly exhausts the
budget ends the load normally, ignoring whatever follows. -/
theorem load_entries_replicate :
    ∀ (n c : Nat) (rest : List Entry), c + n = MAX_LINES_IN_MEM + 1 →
      from_text_entries_load (List.replicate n goodEntry ++ rest) c
        = (List.replicate n (candOf goodEntry), false) := by
  intro n
  induction n with
  | zero =>
    intro c rest hc
    cases rest with
    | nil => simp [from_text_entries_load]
    | cons e t =>
      simp only [List.replicate_zero, List.nil_append]
      simp only [from_text_entries_load]
      rw [if_pos (by omega)]
  | succ n ih =>
    intro c rest hc
    have hcle : ¬ c > MAX_LINES_IN_MEM := by omega
    have hgv : goodEntry.value = some "v" := rfl
    have hgl : goodEntry.line_number = some 1 := rfl
    simp only [List.replicate_succ, List.cons_append, from_text_entries_load,
      if_neg hcle, hgv, hgl, List.append_eq]
    rw [ih (c + 1) rest (by omega)]
    simp [candOf, goodEntry, Entry.displayName]

/-- Counterexample to claim C10: a list holding an entry without value or
line number on which the load does not panic — the bad entry sits just
past the line budget, so the loop breaks before reaching it. -/
theorem claim_C10_counterexample :
    (from_text_entries_load (List.replicate 5000001 goodEntry ++ [badEntry]) 0).2 = false
    ∧ badEntry ∈ List.replicate 5000001 goodEntry ++ [badEntry]
    ∧ badEntry.value = none ∧ badEntry.line_number = none := by
  refine ⟨?_, List.mem_append_right _ (List.mem_singleton.mpr rfl), rfl, rfl⟩
  rw [load_entries_replicate 5000001 0 [badEntry] (by decide)]

/-- Setting one worker's status moves the mapped sum by the difference of
the old and new contributions. -/
theorem sumMapSet (fv : WStatus → Nat) :
    ∀ (ws : List WStatus) (w : Nat) (st st' : WStatus), ws[w]? = some st →
      ((ws.set w st').map fv).sum + fv st = (ws.map fv).sum + fv st' := by
  intro ws
  induction ws with
  | nil => intro w st st' h; simp at h
  | cons a t ih =>
    intro w st st' h
    cases w with
    | zero =>
      simp at h
      subst h
      simp only [List.set_cons_zero, List.map_cons, List.sum_cons]
      omega
    | succ n =>
      simp at h
      have hr := ih n st st' h
      simp only [List.set_cons_succ, List.map_cons, List.sum_cons]
      omega

/-- A pointwise bound on worker contributions bounds their sum. -/
theorem sumMap_le (fv : WStatus → Nat) (K : Nat) :
    ∀ ws : List WStatus, (∀ st ∈ ws, fv st ≤ K) → (ws.map fv).sum ≤ ws.length * K := by
  intro ws
  induction ws with
  | nil => intro _; simp
  | cons a t ih =>
    intro h
    have h1 := h a (by simp)
    have h2 := ih (fun st hst => h st (by simp [hst]))
    simp only [List.map_cons, List.sum_cons, List.length_cons, Nat.succ_mul]
    omega

/-- What a worker has pushed is part of what it holds. -/
theorem pushedAmt_le_pendAmt (st : WStatus) : pushedAmt st ≤ pendAmt st := by
  cases st <;> simp [pushedAmt, pendAmt]

/-- The pushed-but-uncounted total is part of the in-flight total. -/
theorem pushedSum_le_pendingSum : ∀ ws : List WStatus, pushedSum ws ≤ pendingSum ws := by
  intro ws
  induction ws with
  | nil => simp [pushedSum, pendingSum]
  | cons a t ih =>
    simp only [pushedSum, pendingSum, List.map_cons, List.sum_cons] at ih ⊢
    have := pushedAmt_le_pendAmt a
    omega

/-- The initial crawl state satisfies the invariant. -/
theorem crawlInv_init (K W : Nat) : CrawlInv K W (cinit W) := by
  refine ⟨by simp [cinit], ?_, ?_, ?_⟩
  · intro st hst
    rw [List.eq_of_mem_replicate hst]
    simp [pendAmt]
  · simp [cinit, pushedSum, List.map_replicate, pushedAmt]
  · simp [cinit, pendingSum, List.map_replicate, pendAmt]

/-- Every crawl step preserves the invariant. -/
theorem crawlInv_step (K W : Nat) (s s2 : CrawlState) (e : CEvent)
    (hok : eventOKb K e = true) (hinv : CrawlInv K W s) (h : cstep s e = some s2) :
    CrawlInv K W s2 := by
  obtain ⟨hlen, hbound, hinj, hbud⟩ := hinv
  cases e with
  | checkClaim w k =>
    have hkK : k ≤ K := by simpa [eventOKb] using hok
    simp only [cstep] at h
    cases hw : s.workers[w]? with
    | none => rw [hw] at h; exact absurd h (by simp)
    | some st =>
      rw [hw] at h
      cases st with
      | idle =>
        by_cases hg : s.counter ≤ MAX_LINES_IN_MEM
        · rw [if_pos hg] at h
          obtain rfl := (Option.some.injEq _ _).mp h.symm
          have hb2 : ∀ st2 ∈ s.workers.set w (WStatus.claimed k), pendAmt st2 ≤ K := by
            intro st2 hst2
            rcases List.mem_or_eq_of_mem_set hst2 with h1 | rfl
            · exact hbound st2 h1
            · simpa [pendAmt] using hkK
          have hpend := sumMapSet pendAmt s.workers w _ (WStatus.claimed k) hw
          have hpush := sumMapSet pushedAmt s.workers w _ (WStatus.claimed k) hw
          have hple := sumMap_le pendAmt K (s.workers.set w (WStatus.claimed k)) hb2
          refine ⟨by simp [hlen], hb2, ?_, ?_⟩
          · simp only [pushedSum] at hinj ⊢
            simp only [pushedAmt] at hpush
            omega
          · simp only [pendingSum] at hple ⊢
            rw [List.length_set, hlen] at hple
            omega
        · rw [if_neg hg] at h
          exact absurd h (by simp)
      | claimed k2 => exact absurd h (by simp)
      | pushed k2 => exact absurd h (by simp)
      | quit => exact absurd h (by simp)
  | checkQuit w =>
    simp only [cstep] at h
    cases hw : s.workers[w]? with
    | none => rw [hw] at h; exact absurd h (by simp)
    | some st =>
      rw [hw] at h
      cases st with
      | idle =>
        by_cases hg : s.counter > MAX_LINES_IN_MEM
        · rw [if_pos hg] at h
          obtain rfl := (Option.some.injEq _ _).mp h.symm
          have hb2 : ∀ st2 ∈ s.workers.set w WStatus.quit, pendAmt st2 ≤ K := by
            intro st2 hst2
            rcases List.mem_or_eq_of_mem_set hst2 with h1 | rfl
            · exact hbound st2 h1
            · simp [pendAmt]
          have hpend := sumMapSet pendAmt s.workers w _ WStatus.quit hw
          have hpush := sumMapSet pushedAmt s.workers w _ WStatus.quit hw
          refine ⟨by simp [hlen], hb2, ?_, ?_⟩
          · simp only [pushedSum] at hinj ⊢
            simp only [pushedAmt] at hpush
            omega
          · simp only [pendingSum] at hbud ⊢
            simp only [pendAmt] at hpend
            omega
        · rw [if_neg hg] at h
          exact absurd h (by simp)
      | claimed k2 => exact absurd h (by simp)
      | pushed k2 => exact absurd h (by simp)
      | quit => exact absurd h (by simp)
  | push w =>
    simp only [cstep] at h
    cases hw : s.workers[w]? with
    | none => rw [hw] at h; exact absurd h (by simp)
    | some st =>
      rw [hw] at h
      cases st with
      | idle => exact absurd h (by simp)
      | claimed k =>
        obtain rfl := (Option.some.injEq _ _).mp h.symm
        have hkK : k ≤ K := by
          have := hbound _ (List.getElem?_mem hw)
          simpa [pendAmt] using this
        have hb2 : ∀ st2 ∈ s.workers.set w (WStatus.pushed k), pendAmt st2 ≤ K := by
          intro st2 hst2
          rcases List.mem_or_eq_of_mem_set hst2 with h1 | rfl
          · exact hbound st2 h1
          · simpa [pendAmt] using hkK
        have hpend := sumMapSet pendAmt s.workers w _ (WStatus.pushed k) hw
        have hpush := sumMapSet pushedAmt s.workers w _ (WStatus.pushed k) hw
        refine ⟨by simp [hlen], hb2, ?_, ?_⟩
        · simp only [pushedSum] at hinj ⊢
          simp only [pushedAmt] at hpush
          omega
        · simp only [pendingSum] at hbud ⊢
          simp only [pendAmt] at hpend
          omega
      | pushed k2 => exact absurd h (by simp)
      | quit => exact absurd h (by simp)
  | addCount w =>
    simp only [cstep] at h
    cases hw : s.workers[w]? with
    | none => rw [hw] at h; exact absurd h (by simp)
    | some st =>
      rw [hw] at h
      cases st with
      | idle => exact absurd h (by simp)
      | claimed k2 => exact absurd h (by simp)
      | pushed k =>
        obtain rfl := (Option.some.injEq _ _).mp h.symm
        have hb2 : ∀ st2 ∈ s.workers.set w WStatus.idle, pendAmt st2 ≤ K := by
          intro st2 hst2
          rcases List.mem_or_eq_of_mem_set hst2 with h1 | rfl
          · exact hbound st2 h1
          · simp [pendAmt]
        have hpend := sumMapSet pendAmt s.workers w _ WStatus.idle hw
        have hpush := sumMapSet pushedAmt s.workers w _ WStatus.idle hw
        refine ⟨by simp [hlen], hb2, ?_, ?_⟩
        · simp only [pushedSum] at hinj ⊢
          simp only [pushedAmt] at hpush
          omega
        · simp only [pendingSum] at hbud ⊢
          simp only [pendAmt] at hpend
          omega
      | quit => exact absurd h (by simp)

/-- Running any admissible event sequence preserves the invariant. -/
theorem crawlInv_run (K W : Nat) :
    ∀ (evs : List CEvent) (s s2 : CrawlState),
      evs.all (eventOKb K) = true → CrawlInv K W s → crun s evs = some s2 →
      CrawlInv K W s2 := by
  intro evs
  induction evs with
  | nil =>
    intro s s2 _ hinv h
    simp [crun] at h
    exact h ▸ hinv
  | cons e rest ih =>
    intro s s2 hall hinv h
    simp only [List.all_cons, Bool.and_eq_true] at hall
    simp only [crun] at h
    cases hc : cstep s e with
    | none => rw [hc] at h; exact absurd h (by simp)
    | some s1 =>
      rw [hc] at h
      simp only [Option.some_bind] at h
      exact ih s1 s2 hall.2 (crawlInv_step K W s s1 e hall.1 hinv hc) h

/-- Claim C3: over any interleaved run of the parallel crawl in which each
claimed file injects at most K candidate lines, the candidates ever pushed
to the injector stay within the budget plus one in-flight batch per
worker, W * K — each worker re-checks the shared counter before claiming
and stops once it exceeds the budget, so the overshoot is what the
already-claimed files inject. -/
theorem claim_C3_budget (W K : Nat) (evs : List CEvent) (s : CrawlState)
    (hK : evs.all (eventOKb K) = true)
    (hrun : crun (cinit W) evs = some s) :
    s.injected ≤ MAX_LINES_IN_MEM + W * K
    ∧ s.counter ≤ MAX_LINES_IN_MEM + W * K := by
  obtain ⟨hlen, hbound, hinj, hbud⟩ :=
    crawlInv_run K W evs (cinit W) s hK (crawlInv_init K W) hrun
  have hple := pushedSum_le_pendingSum s.workers
  constructor
  · omega
  · omega

/-- Witness for claim C3: one worker claims a 2-line file, pushes it and
publishes the count. -/
theorem claim_C3_witness :
    (⟨2, 2, [WStatus.idle]⟩ : CrawlState).injected ≤ MAX_LINES_IN_MEM + 1 * 2
    ∧ (⟨2, 2, [WStatus.idle]⟩ : CrawlState).counter ≤ MAX_LINES_IN_MEM + 1 * 2 :=
  claim_C3_budget 1 2 wevs ⟨2, 2, [WStatus.idle]⟩ (by decide) (by decide)

end Television
